import Mathlib

/-!
Verification of the pairwise-distance scripts of this repository.

The repository holds two scripts.  `distance.py` draws N random points,
then fills a dense N-by-N matrix `D` of zeros with the Euclidean distance
of every pair i < j by a double loop:

    for i in range(N):
        for j in range(i+1, N):
            dr = r[j] - r[i]
            D[i,j] = np.sqrt(sum(dr*dr))

`faster.py` draws 1000 random points and computes the condensed distance
list in bulk:

    uti = np.triu_indices(100, k=1)
    a = np.square(r[uti[0]] - r[uti[1]])
    a = np.sqrt(np.sum(a, axis=1))

The embedding below represents a point set as a list of lists of exact
rationals standing for the scripts' floating-point coordinates, and the
final square root as `Real.sqrt` on the exact sum of squares.  The loop of
`distance.py` is modelled as explicit state passing over the list of index
pairs it visits, so that mutation of `D`, early failure, and preservation
of `r` are all visible in the model.
-/

namespace Sandbox

/-- numpy elementwise subtraction `a - b` of two one-dimensional arrays.
Equal lengths subtract pointwise; a length-1 operand is broadcast over
the other operand; any other length difference raises a broadcasting
error, modelled as `none`. -/
def vsub (a b : List ℚ) : Option (List ℚ) :=
  if a.length = b.length then some (List.zipWith (· - ·) a b)
  else if a.length = 1 then some (b.map (fun y => a.getD 0 0 - y))
  else if b.length = 1 then some (a.map (fun x => x - b.getD 0 0))
  else none

/-- `sum(dr*dr)`: the sum of the elementwise product of a vector with
itself, the squared Euclidean norm. -/
def sumsq (v : List ℚ) : ℚ := (List.zipWith (· * ·) v v).sum

/-- The row of upper-triangular index pairs starting at row `i`:
`(i, i+1), (i, i+2), ...` with `len` entries. -/
def rowFrom (i len : Nat) : List (Nat × Nat) :=
  (List.range len).map (fun t => (i, i + 1 + t))

/-- All index pairs `(i, j)` with `i < j < n`, in the row-major order in
which both `distance.py`'s double loop visits them and
`np.triu_indices(n, k=1)` lists them: `i` ascending, and for equal `i`,
`j` ascending. -/
def pairList (n : Nat) : List (Nat × Nat) :=
  (List.range n).flatMap (fun i => rowFrom i (n - i - 1))

/-- Strict lexicographic order on index pairs: the canonical pair order. -/
def pairLt (p q : Nat × Nat) : Prop :=
  p.1 < q.1 ∨ (p.1 = q.1 ∧ p.2 < q.2)

/-- `np.zeros(shape=(n,n))`: the n-by-n all-zero matrix. -/
def Matrix0 (n : Nat) : List (List ℚ) :=
  List.replicate n (List.replicate n 0)

/-- Read entry `(i, j)` of a matrix, defaulting to 0 out of bounds. -/
def getMat (m : List (List ℚ)) (i j : Nat) : ℚ :=
  (m.getD i []).getD j 0

/-- Write value `v` at entry `(i, j)` of a matrix (`D[i,j] = v`). -/
def setMat (m : List (List ℚ)) (i j : Nat) (v : ℚ) : List (List ℚ) :=
  m.set i ((m.getD i []).set j v)

/-- The state of `distance.py`'s loop: the point array `r`, the distance
matrix `D` (holding squared distances; the stored value of the script is
the square root of each entry, see `naiveD`), and whether execution has
not yet raised an error. -/
structure NState where
  r : List (List ℚ)
  D : List (List ℚ)
  ok : Bool

/-- One pass of `distance.py`'s double loop over the remaining index
pairs.  For pair `(i, j)` it computes `dr = r[j] - r[i]` and stores
`sum(dr*dr)` at `D[i,j]`; if the subtraction fails (points of differing
dimensionality) execution stops at that point, keeping the entries
already written. -/
def naiveGo : List (Nat × Nat) → NState → NState
  | [], s => s
  | (i, j) :: rest, s =>
    match vsub (s.r.getD j []) (s.r.getD i []) with
    | some dr => naiveGo rest ⟨s.r, setMat s.D i j (sumsq dr), s.ok⟩
    | none => ⟨s.r, s.D, false⟩

/-- Run `distance.py`'s computation on a point set `r`: start from the
all-zero matrix and visit every pair `(i, j)` with `i < j < N` in loop
order. -/
def naiveRun (r : List (List ℚ)) : NState :=
  naiveGo (pairList r.length) ⟨r, Matrix0 r.length, true⟩

/-- The distance matrix `D` of `distance.py` over the reals: each stored
entry is the square root of the computed sum of squares (unwritten
entries stay `0 = sqrt 0`). -/
noncomputable def naiveD (r : List (List ℚ)) : List (List ℝ) :=
  (naiveRun r).D.map (fun row => row.map (fun (q : ℚ) => Real.sqrt (q : ℝ)))

/-- Read entry `(i, j)` of a real matrix, defaulting to 0 out of bounds. -/
def getMatR (m : List (List ℝ)) (i j : Nat) : ℝ :=
  (m.getD i []).getD j 0

/-- `uti = np.triu_indices(100, k=1)` of `faster.py`: the upper-triangular
index pairs of a 100-by-100 matrix above the diagonal, in row-major
order, independent of the size of the point set. -/
def uti : List (Nat × Nat) := pairList 100

/-- The bulk computation of `faster.py` up to the square root: for every
pair `(i, j)` in `uti` it computes `np.sum(np.square(r[i] - r[j]))`.
Fancy indexing `r[uti[0]]` raises `IndexError` when the point set has
fewer than 100 points, modelled as `none`. -/
def bulkSq (r : List (List ℚ)) : Option (List ℚ) :=
  if 100 ≤ r.length then
    some (uti.map (fun p => sumsq (List.zipWith (· - ·) (r.getD p.1 []) (r.getD p.2 []))))
  else none

/-- The condensed output `a` of `faster.py` over the reals. -/
noncomputable def bulkD (r : List (List ℚ)) : Option (List ℝ) :=
  (bulkSq r).map (fun l => l.map (fun (q : ℚ) => Real.sqrt (q : ℝ)))

/-- Element `k` of `faster.py`'s condensed output (0 out of bounds or on
failure). -/
noncomputable def bulkVal (r : List (List ℚ)) (k : Nat) : ℝ :=
  ((bulkD r).getD []).getD k 0

/-- The mathematical Euclidean distance of the specification:
`sqrt(sum_k (p[k] - q[k])^2)`.  Stated from the spec's words, to be
compared against what the code computes. -/
noncomputable def specEuclid (p q : List ℚ) : ℝ :=
  Real.sqrt ((((List.zipWith (· - ·) p q).map (fun x => x * x)).sum : ℚ))

/-- The state of `faster.py`: the point array `r` and the output `a`. -/
structure FState where
  r : List (List ℚ)
  a : Option (List ℝ)

/-- Run `faster.py`'s bulk computation: it rebinds `a` and leaves `r`
alone. -/
noncomputable def fasterRun (s : FState) : FState :=
  ⟨s.r, (bulkSq s.r).map (fun l => l.map (fun (q : ℚ) => Real.sqrt (q : ℝ)))⟩

/-- `L = 100`, the simulation box dimension of both scripts. -/
def L : ℚ := 100

/-- One coordinate produced by `r = (np.random.random(...) - 0.5) * L`
from a raw uniform sample `u` of `[0, 1)`. -/
def genCoord (u : ℚ) : ℚ := (u - 1 / 2) * L

/-- A concrete point set of `faster.py`'s configured size N = 1000
(dimension 2). -/
def r1000 : List (List ℚ) := (List.range 1000).map (fun (i : Nat) => [(i : ℚ), 0])

/-- A concrete point set with 101 points of dimension 2. -/
def r101 : List (List ℚ) := (List.range 101).map (fun (i : Nat) => [(i : ℚ), 0])

/-- A concrete point set with exactly 100 points of dimension 2. -/
def r100 : List (List ℚ) := (List.range 100).map (fun (i : Nat) => [(i : ℚ), 0])

/-! ### Generic list helpers -/

lemma getD_set_ne {α : Type} (l : List α) (x d : α) (i j : Nat) (h : i ≠ j) :
    (l.set i x).getD j d = l.getD j d := by
  simp [List.getElem?_set_ne h]

lemma getD_set_self {α : Type} (l : List α) (x d : α) (i : Nat) (h : i < l.length) :
    (l.set i x).getD i d = x := by
  simp [List.getElem?_set_self h]

lemma getD_replicate {α : Type} (x d : α) (n i : Nat) :
    (List.replicate n x).getD i d = if i < n then x else d := by
  by_cases h : i < n
  · rw [List.getD_eq_getElem _ _ (by simpa using h), List.getElem_replicate, if_pos h]
  · rw [List.getD_eq_default _ _ (by simpa using Nat.le_of_not_lt h), if_neg h]

lemma getD_sqrtMap (l : List ℚ) (j : Nat) :
    (l.map (fun (q : ℚ) => Real.sqrt (q : ℝ))).getD j 0 = Real.sqrt ((l.getD j 0 : ℚ) : ℝ) := by
  by_cases h : j < l.length
  · rw [List.getD_eq_getElem _ _ (by simpa using h), List.getElem_map,
      List.getD_eq_getElem _ _ h]
  · rw [List.getD_eq_default _ _ (by simpa using Nat.le_of_not_lt h),
      List.getD_eq_default _ _ (Nat.le_of_not_lt h)]
    simp

/-! ### The pair enumeration -/

lemma length_rowFrom (i len : Nat) : (rowFrom i len).length = len := by
  simp [rowFrom]

lemma mem_rowFrom {i len a b : Nat} :
    (a, b) ∈ rowFrom i len ↔ a = i ∧ i < b ∧ b < i + 1 + len := by
  simp only [rowFrom, List.mem_map, List.mem_range, Prod.mk.injEq]
  constructor
  · rintro ⟨t, ht, rfl, rfl⟩
    omega
  · rintro ⟨rfl, h1, h2⟩
    exact ⟨b - a - 1, by omega, rfl, by omega⟩

lemma mem_pairList {n a b : Nat} : (a, b) ∈ pairList n ↔ a < b ∧ b < n := by
  simp only [pairList, List.mem_flatMap, List.mem_range, mem_rowFrom]
  constructor
  · rintro ⟨i, hi, rfl, h1, h2⟩
    omega
  · rintro ⟨h1, h2⟩
    exact ⟨a, by omega, rfl, h1, by omega⟩

lemma pairwise_rowFrom (i len : Nat) : (rowFrom i len).Pairwise pairLt := by
  rw [rowFrom, List.pairwise_map]
  exact (List.pairwise_lt_range len).imp (fun h => Or.inr ⟨rfl, by omega⟩)

lemma pairwise_flatMap_rows (g : Nat → List (Nat × Nat))
    (hfst : ∀ i p, p ∈ g i → p.1 = i) (hrow : ∀ i, (g i).Pairwise pairLt) :
    ∀ is : List Nat, is.Pairwise (· < ·) → (is.flatMap g).Pairwise pairLt := by
  intro is
  induction is with
  | nil => intro; simp
  | cons a tl ih =>
    intro hp
    obtain ⟨ha, htl⟩ := List.pairwise_cons.mp hp
    rw [List.flatMap_cons, List.pairwise_append]
    refine ⟨hrow a, ih htl, ?_⟩
    intro p hp' q hq'
    obtain ⟨b, hb, hqb⟩ := List.mem_flatMap.mp hq'
    exact Or.inl (by rw [hfst a p hp', hfst b q hqb]; exact ha b hb)

lemma pairwise_pairList (n : Nat) : (pairList n).Pairwise pairLt := by
  refine pairwise_flatMap_rows _ ?_ (fun i => pairwise_rowFrom i _) _
    (List.pairwise_lt_range n)
  rintro i ⟨a, b⟩ hp
  exact (mem_rowFrom.mp hp).1

lemma pairLt_ne {p q : Nat × Nat} (h : pairLt p q) : p ≠ q := by
  rintro rfl
  rcases h with h | ⟨-, h⟩ <;> exact absurd h (lt_irrefl _)

lemma nodup_pairList (n : Nat) : (pairList n).Nodup :=
  (pairwise_pairList n).imp pairLt_ne

lemma listsum_range (f : Nat → Nat) (n : Nat) :
    ((List.range n).map f).sum = ∑ i ∈ Finset.range n, f i := by
  induction n with
  | zero => simp
  | succ n ih => rw [List.range_succ]; simp [ih, Finset.sum_range_succ]

lemma length_pairList (n : Nat) : (pairList n).length = n * (n - 1) / 2 := by
  have h1 : (pairList n).length =
      ((List.range n).map (fun i => n - i - 1)).sum := by
    rw [pairList, List.flatMap, List.length_flatten, List.map_map]
    exact congrArg List.sum (List.map_congr_left (fun i _ => length_rowFrom i _))
  have h2 : ∑ i ∈ Finset.range n, (n - i - 1) = ∑ i ∈ Finset.range n, (n - 1 - i) :=
    Finset.sum_congr rfl (fun i _ => by omega)
  have h3 : ∑ i ∈ Finset.range n, (n - 1 - i) = ∑ i ∈ Finset.range n, i := by
    simpa using Finset.sum_range_reflect (fun j => j) n
  rw [h1, listsum_range, h2, h3, Finset.sum_range_id]

lemma length_uti : uti.length = 4950 := by
  rw [uti, length_pairList]

lemma getD_mem {α : Type} (l : List α) (k : Nat) (d : α) (h : k < l.length) :
    l.getD k d ∈ l := by
  rw [List.getD_eq_getElem _ _ h]
  exact List.getElem_mem _

/-! ### Sums of squares -/

lemma sumsq_sub_comm (a b : List ℚ) :
    sumsq (List.zipWith (· - ·) a b) = sumsq (List.zipWith (· - ·) b a) := by
  induction a generalizing b with
  | nil => cases b <;> rfl
  | cons x xs ih =>
    cases b with
    | nil => rfl
    | cons y ys =>
      simp only [List.zipWith_cons_cons, sumsq, List.sum_cons] at ih ⊢
      rw [ih ys]
      ring_nf

lemma sumsq_eq_map (v : List ℚ) : sumsq v = (v.map (fun x => x * x)).sum := by
  induction v with
  | nil => rfl
  | cons x xs ih =>
    simp only [sumsq, List.zipWith_cons_cons, List.map_cons, List.sum_cons] at ih ⊢
    rw [ih]

/-! ### Matrix helpers -/

lemma getMat_matrix0 (n i j : Nat) : getMat (Matrix0 n) i j = 0 := by
  unfold getMat Matrix0
  rw [getD_replicate]
  split
  · rw [getD_replicate]
    split <;> rfl
  · rfl

lemma getMat_setMat_ne (m : List (List ℚ)) (a b i j : Nat) (v : ℚ)
    (h : (i, j) ≠ (a, b)) : getMat (setMat m a b v) i j = getMat m i j := by
  unfold getMat setMat
  by_cases hia : a = i
  · subst hia
    have hbj : b ≠ j := by
      rintro rfl
      exact h rfl
    by_cases hlen : a < m.length
    · rw [getD_set_self _ _ _ _ hlen, getD_set_ne _ _ _ _ _ hbj]
    · rw [List.set_eq_of_length_le (Nat.le_of_not_lt hlen)]
  · rw [getD_set_ne _ _ _ _ _ hia]

/-- The matrix is an n-by-n table: n rows, each of n entries. -/
def shape (n : Nat) (m : List (List ℚ)) : Prop :=
  m.length = n ∧ ∀ row ∈ m, row.length = n

lemma shape_matrix0 (n : Nat) : shape n (Matrix0 n) := by
  constructor
  · simp [Matrix0]
  · intro row hr
    rw [List.eq_of_mem_replicate hr]
    simp

lemma row_length {n : Nat} {m : List (List ℚ)} (h : shape n m) (a : Nat) (ha : a < n) :
    (m.getD a []).length = n := by
  obtain ⟨hlen, hrow⟩ := h
  have hm : m.getD a [] ∈ m := getD_mem _ _ _ (by omega)
  exact hrow _ hm

lemma shape_setMat {n : Nat} {m : List (List ℚ)} (h : shape n m) (a b : Nat) (v : ℚ)
    (ha : a < n) : shape n (setMat m a b v) := by
  obtain ⟨hlen, hrow⟩ := h
  constructor
  · simp [setMat, hlen]
  · intro row hr
    rcases List.mem_or_eq_of_mem_set hr with hr' | rfl
    · exact hrow _ hr'
    · rw [List.length_set]
      exact row_length ⟨hlen, hrow⟩ a ha

lemma getMat_setMat_self {n : Nat} {m : List (List ℚ)} (h : shape n m) (a b : Nat)
    (v : ℚ) (ha : a < n) (hb : b < n) : getMat (setMat m a b v) a b = v := by
  have h1 : a < m.length := by
    rw [h.1]
    exact ha
  have h2 : b < (m.getD a []).length := by
    rw [row_length h a ha]
    exact hb
  unfold getMat setMat
  rw [getD_set_self _ _ _ _ h1, getD_set_self _ _ _ _ h2]

/-! ### Invariants of the naive double loop -/

lemma vsub_none_iff (a b : List ℚ) :
    vsub a b = none ↔ a.length ≠ b.length ∧ a.length ≠ 1 ∧ b.length ≠ 1 := by
  unfold vsub
  split_ifs <;> simp_all

lemma vsub_eq_of_length_eq {a b : List ℚ} (h : a.length = b.length) :
    vsub a b = some (List.zipWith (· - ·) a b) := by
  unfold vsub
  rw [if_pos h]

lemma naiveGo_r (l : List (Nat × Nat)) (s : NState) : (naiveGo l s).r = s.r := by
  induction l generalizing s with
  | nil => rfl
  | cons p tl ih =>
    obtain ⟨i, j⟩ := p
    rw [naiveGo]
    cases hv : vsub (s.r.getD j []) (s.r.getD i []) with
    | some dr => exact ih _
    | none => rfl

lemma naiveGo_ok_iff (l : List (Nat × Nat)) (s : NState) (hok : s.ok = true) :
    (naiveGo l s).ok = false ↔
      ∃ p ∈ l, vsub (s.r.getD p.2 []) (s.r.getD p.1 []) = none := by
  induction l generalizing s with
  | nil => simp [naiveGo, hok]
  | cons p tl ih =>
    obtain ⟨i, j⟩ := p
    rw [naiveGo]
    cases hv : vsub (s.r.getD j []) (s.r.getD i []) with
    | some dr =>
      rw [ih ⟨s.r, setMat s.D i j (sumsq dr), s.ok⟩ hok]
      constructor
      · rintro ⟨q, hq, h⟩
        exact ⟨q, List.mem_cons_of_mem _ hq, h⟩
      · rintro ⟨q, hq, h⟩
        rcases List.mem_cons.mp hq with rfl | hq'
        · rw [hv] at h
          cases h
        · exact ⟨q, hq', h⟩
    | none =>
      constructor
      · intro _
        exact ⟨(i, j), List.mem_cons_self _ _, hv⟩
      · intro _
        rfl

lemma naiveGo_D_stable (l : List (Nat × Nat)) (s : NState) (i j : Nat)
    (h : (i, j) ∉ l) : getMat (naiveGo l s).D i j = getMat s.D i j := by
  induction l generalizing s with
  | nil => rfl
  | cons p tl ih =>
    obtain ⟨a, b⟩ := p
    have hne : (i, j) ≠ (a, b) := by
      intro he
      exact h (he ▸ List.mem_cons_self _ _)
    have htl : (i, j) ∉ tl := fun he => h (List.mem_cons_of_mem _ he)
    rw [naiveGo]
    cases hv : vsub (s.r.getD b []) (s.r.getD a []) with
    | some dr =>
      rw [ih _ htl]
      exact getMat_setMat_ne _ _ _ _ _ _ hne
    | none => rfl

lemma naiveGo_shape (n : Nat) (l : List (Nat × Nat)) (s : NState) (hs : shape n s.D)
    (hb : ∀ p ∈ l, p.1 < n) : shape n (naiveGo l s).D := by
  induction l generalizing s with
  | nil => exact hs
  | cons p tl ih =>
    obtain ⟨a, b⟩ := p
    rw [naiveGo]
    cases hv : vsub (s.r.getD b []) (s.r.getD a []) with
    | some dr =>
      exact ih _ (shape_setMat hs a b _ (hb (a, b) (List.mem_cons_self _ _)))
        (fun q hq => hb q (List.mem_cons_of_mem _ hq))
    | none => exact hs

lemma naiveGo_entry (n : Nat) (l : List (Nat × Nat)) (s : NState) (hs : shape n s.D)
    (hnd : l.Nodup) (hb : ∀ p ∈ l, p.1 < n ∧ p.2 < n)
    (hlen : ∀ p ∈ l, (s.r.getD p.2 []).length = (s.r.getD p.1 []).length)
    (i j : Nat) (hmem : (i, j) ∈ l) :
    getMat (naiveGo l s).D i j =
      sumsq (List.zipWith (· - ·) (s.r.getD j []) (s.r.getD i [])) := by
  induction l generalizing s with
  | nil => cases hmem
  | cons p tl ih =>
    obtain ⟨a, b⟩ := p
    have hsub : vsub (s.r.getD b []) (s.r.getD a []) =
        some (List.zipWith (· - ·) (s.r.getD b []) (s.r.getD a [])) :=
      vsub_eq_of_length_eq (hlen (a, b) (List.mem_cons_self _ _))
    rw [naiveGo]
    cases hv : vsub (s.r.getD b []) (s.r.getD a []) with
    | none =>
      rw [hsub] at hv
      cases hv
    | some dr =>
      have hdr : dr = List.zipWith (· - ·) (s.r.getD b []) (s.r.getD a []) := by
        rw [hsub] at hv
        exact (Option.some_inj.mp hv).symm
      rcases List.mem_cons.mp hmem with he | htl
      · obtain ⟨rfl, rfl⟩ := Prod.mk.injEq i j a b ▸ he
        rw [naiveGo_D_stable _ _ _ _ (List.nodup_cons.mp hnd).1,
          getMat_setMat_self hs _ _ _ (hb _ (List.mem_cons_self _ _)).1
            (hb _ (List.mem_cons_self _ _)).2, hdr]
      · exact ih ⟨s.r, setMat s.D a b (sumsq dr), s.ok⟩
          (shape_setMat hs a b _ (hb (a, b) (List.mem_cons_self _ _)).1)
          (List.nodup_cons.mp hnd).2
          (fun q hq => hb q (List.mem_cons_of_mem _ hq))
          (fun q hq => hlen q (List.mem_cons_of_mem _ hq)) htl

/-! ### Facts about a full run of the naive script -/

lemma naiveRun_r (r : List (List ℚ)) : (naiveRun r).r = r :=
  naiveGo_r _ _

lemma naiveRun_ok_iff (r : List (List ℚ)) :
    (naiveRun r).ok = false ↔
      ∃ i j, i < j ∧ j < r.length ∧
        (r.getD i []).length ≠ (r.getD j []).length ∧
        (r.getD i []).length ≠ 1 ∧ (r.getD j []).length ≠ 1 := by
  rw [naiveRun, naiveGo_ok_iff _ _ rfl]
  constructor
  · rintro ⟨⟨i, j⟩, hmem, hnone⟩
    obtain ⟨hij, hj⟩ := mem_pairList.mp hmem
    rw [vsub_none_iff] at hnone
    exact ⟨i, j, hij, hj, fun he => hnone.1 he.symm, hnone.2.2, hnone.2.1⟩
  · rintro ⟨i, j, hij, hj, hne, hi1, hj1⟩
    refine ⟨(i, j), mem_pairList.mpr ⟨hij, hj⟩, ?_⟩
    rw [vsub_none_iff]
    exact ⟨fun he => hne he.symm, hj1, hi1⟩

lemma uniform_getD_length (r : List (List ℚ)) (d : Nat)
    (hud : ∀ p ∈ r, p.length = d) (k : Nat) (hk : k < r.length) :
    (r.getD k []).length = d := by
  rw [List.getD_eq_getElem _ _ hk]
  exact hud _ (List.getElem_mem _)

lemma naiveRun_ok_of_uniform (r : List (List ℚ)) (d : Nat)
    (hud : ∀ p ∈ r, p.length = d) : (naiveRun r).ok = true := by
  cases h : (naiveRun r).ok with
  | true => rfl
  | false =>
    obtain ⟨i, j, hij, hj, hne, -, -⟩ := (naiveRun_ok_iff r).mp h
    exact absurd (by
      rw [uniform_getD_length r d hud i (by omega),
        uniform_getD_length r d hud j hj]) hne

lemma naiveRun_shape (r : List (List ℚ)) : shape r.length (naiveRun r).D := by
  refine naiveGo_shape _ _ _ (shape_matrix0 _) ?_
  rintro ⟨a, b⟩ hp
  have := mem_pairList.mp hp
  omega

lemma naiveRun_entry (r : List (List ℚ)) (d : Nat) (hud : ∀ p ∈ r, p.length = d)
    (i j : Nat) (hij : i < j) (hj : j < r.length) :
    getMat (naiveRun r).D i j =
      sumsq (List.zipWith (· - ·) (r.getD j []) (r.getD i [])) := by
  refine naiveGo_entry r.length _ _ (shape_matrix0 _) (nodup_pairList _) ?_ ?_ i j
    (mem_pairList.mpr ⟨hij, hj⟩)
  · rintro ⟨a, b⟩ hp
    have := mem_pairList.mp hp
    omega
  · rintro ⟨a, b⟩ hp
    obtain ⟨hab, hb⟩ := mem_pairList.mp hp
    rw [uniform_getD_length r d hud b hb, uniform_getD_length r d hud a (by omega)]

lemma getD_map_rows {α β : Type} (f : List α → List β) (hf : f [] = [])
    (l : List (List α)) (i : Nat) : (l.map f).getD i [] = f (l.getD i []) := by
  by_cases h : i < l.length
  · rw [List.getD_eq_getElem _ _ (by simpa using h), List.getElem_map,
      List.getD_eq_getElem _ _ h]
  · rw [List.getD_eq_default _ _ (by simpa using Nat.le_of_not_lt h),
      List.getD_eq_default _ _ (Nat.le_of_not_lt h), hf]

lemma getMatR_naiveD (r : List (List ℚ)) (i j : Nat) :
    getMatR (naiveD r) i j = Real.sqrt ((getMat (naiveRun r).D i j : ℚ) : ℝ) := by
  unfold getMatR naiveD getMat
  rw [getD_map_rows _ rfl, getD_sqrtMap]

/-! ### Facts about the bulk script -/

lemma bulkSq_isSome (r : List (List ℚ)) : (bulkSq r).isSome ↔ 100 ≤ r.length := by
  unfold bulkSq
  split <;> simp_all

lemma bulkVal_eq (r : List (List ℚ)) (h : 100 ≤ r.length) (k : Nat)
    (hk : k < uti.length) :
    bulkVal r k = Real.sqrt ((sumsq (List.zipWith (· - ·)
      (r.getD (uti.getD k (0, 0)).1 []) (r.getD (uti.getD k (0, 0)).2 [])) : ℚ) : ℝ) := by
  unfold bulkVal bulkD bulkSq
  rw [if_pos h]
  simp only [Option.map_some', Option.getD_some]
  rw [getD_sqrtMap]
  congr 2
  rw [List.getD_eq_getElem _ _ (by simpa using hk), List.getElem_map,
    List.getD_eq_getElem _ _ hk]

/-! ### Claim theorems -/

/-- C9: every coordinate produced by the uniform random point generator
with box length L lies in the closed range from -L/2 to L/2: for every raw
sample u with 0 ≤ u < 1, the generated coordinate (u - 0.5) * L is within
those bounds. -/
theorem genCoord_in_box (u : ℚ) (h0 : 0 ≤ u) (h1 : u < 1) :
    -(L / 2) ≤ genCoord u ∧ genCoord u ≤ L / 2 := by
  unfold genCoord L
  constructor <;> nlinarith

/-- Witness for C9 at the concrete sample u = 0. -/
theorem genCoord_in_box_witness :
    (0 : ℚ) ≤ 0 ∧ (0 : ℚ) < 1 ∧ (-(L / 2) ≤ genCoord 0 ∧ genCoord 0 ≤ L / 2) :=
  ⟨le_refl 0, by norm_num, genCoord_in_box 0 (le_refl 0) (by norm_num)⟩

/-- C5: for a point set with 0 or 1 points the naive computation succeeds
without error, iterates over no pair at all, and leaves the matrix in its
initial all-zero state: an empty result with zero distances. -/
theorem degenerate_empty_result (r : List (List ℚ)) (h : r.length = 0 ∨ r.length = 1) :
    (naiveRun r).ok = true ∧ pairList r.length = [] ∧
      (naiveRun r).D = Matrix0 r.length := by
  have hp : pairList r.length = [] := by
    rcases h with h | h <;> rw [h] <;> rfl
  refine ⟨?_, hp, ?_⟩ <;> rw [naiveRun, hp] <;> rfl

/-- Witness for C5 on the one-point set with the single point (5). -/
theorem degenerate_empty_result_witness :
    ([[(5 : ℚ)]].length = 0 ∨ [[(5 : ℚ)]].length = 1) ∧
      ((naiveRun [[(5 : ℚ)]]).ok = true ∧ pairList [[(5 : ℚ)]].length = [] ∧
        (naiveRun [[(5 : ℚ)]]).D = Matrix0 [[(5 : ℚ)]].length) :=
  ⟨Or.inr rfl, degenerate_empty_result _ (Or.inr rfl)⟩

/-- C7: neither strategy mutates the input point set: after a full run of
the naive loop, and after the bulk computation of the faster script, the
point array r of the state is the array the run started from. -/
theorem input_points_not_mutated (r : List (List ℚ)) (a0 : Option (List ℝ)) :
    (naiveRun r).r = r ∧ (fasterRun ⟨r, a0⟩).r = r :=
  ⟨naiveRun_r r, rfl⟩

/-- C6: in the dense matrix of the naive script every entry on or below
the diagonal is still zero after the run (those entries are never
written), and every entry above the diagonal is non-negative. -/
theorem matrix_upper_triangular (r : List (List ℚ)) (i j : Nat) :
    (j ≤ i → getMatR (naiveD r) i j = 0) ∧
      (i < j → 0 ≤ getMatR (naiveD r) i j) := by
  constructor
  · intro hji
    have hz : getMat (naiveRun r).D i j = 0 := by
      rw [naiveRun, naiveGo_D_stable, getMat_matrix0]
      intro hmem
      have := mem_pairList.mp hmem
      omega
    rw [getMatR_naiveD, hz]
    simp
  · intro _
    rw [getMatR_naiveD]
    exact Real.sqrt_nonneg _

/-- Witness for C6 on the two-point set (0,0), (3,4): the lower-triangle
entry (1,0) is zero and the upper-triangle entry (0,1) is non-negative. -/
theorem matrix_upper_triangular_witness :
    getMatR (naiveD [[(0 : ℚ), 0], [3, 4]]) 1 0 = 0 ∧
      0 ≤ getMatR (naiveD [[(0 : ℚ), 0], [3, 4]]) 0 1 :=
  ⟨(matrix_upper_triangular [[(0 : ℚ), 0], [3, 4]] 1 0).1 (by norm_num),
    (matrix_upper_triangular [[(0 : ℚ), 0], [3, 4]] 0 1).2 (by norm_num)⟩

/-- C4 (amended): the naive computation fails exactly when the point set
holds two points whose coordinate dimensionalities differ and neither is
1 (numpy broadcasts a single-coordinate point over the other operand, so
that mismatch subtracts without error); there is no validation pass
before the loop, so the failure is raised by the array subtraction at
the first offending pair in loop order. -/
theorem failure_iff_dimension_mismatch (r : List (List ℚ)) :
    (naiveRun r).ok = false ↔
      ∃ i j, i < j ∧ j < r.length ∧
        (r.getD i []).length ≠ (r.getD j []).length ∧
        (r.getD i []).length ≠ 1 ∧ (r.getD j []).length ≠ 1 :=
  naiveRun_ok_iff r

/-- Witness for C4: a set whose two points have dimensions 2 and 3 fails,
while a set whose two points have dimensions 1 and 2 (a broadcastable
mismatch) does not fail. -/
theorem failure_iff_dimension_mismatch_witness :
    (naiveRun [[(0 : ℚ), 0], [0, 0, 0]]).ok = false ∧
      ¬ (naiveRun [[(0 : ℚ)], [0, 0]]).ok = false := by
  refine ⟨(failure_iff_dimension_mismatch [[(0 : ℚ), 0], [0, 0, 0]]).mpr
    ⟨0, 1, by norm_num, by norm_num, by decide, by decide, by decide⟩, ?_⟩
  intro h
  obtain ⟨i, j, hij, hj, hne, hi1, hj1⟩ :=
    (failure_iff_dimension_mismatch [[(0 : ℚ)], [0, 0]]).mp h
  have hj2 : j < 2 := by simpa using hj
  have hi0 : i = 0 := by omega
  have hj1' : j = 1 := by omega
  subst hi0
  subst hj1'
  exact hi1 (by decide)

/-- C4 (counterexample to the claim as stated): on the point set
(0,0), (1,1), (0,0,0) the computation does fail, but only after the
distance of the pair (0,1) has already been computed and stored: entry
(0,1) of the matrix holds the nonzero value sqrt 2, so a partial result
is produced, contradicting "validation fails before any distance is
computed". -/
theorem failure_after_partial_result :
    (naiveRun [[(0 : ℚ), 0], [1, 1], [0, 0, 0]]).ok = false ∧
      getMat (naiveRun [[(0 : ℚ), 0], [1, 1], [0, 0, 0]]).D 0 1 = 2 ∧
      getMatR (naiveD [[(0 : ℚ), 0], [1, 1], [0, 0, 0]]) 0 1 ≠ 0 := by
  have h2 : getMat (naiveRun [[(0 : ℚ), 0], [1, 1], [0, 0, 0]]).D 0 1 = 2 := by
    norm_num [naiveRun, pairList, rowFrom, naiveGo, vsub, sumsq, setMat, getMat,
      Matrix0, List.range_succ]
  refine ⟨?_, h2, ?_⟩
  · norm_num [naiveRun, pairList, rowFrom, naiveGo, vsub, sumsq, setMat,
      Matrix0, List.range_succ]
  rw [getMatR_naiveD, h2, show (((2 : ℚ) : ℝ)) = 2 by norm_num]
  exact Real.sqrt_ne_zero'.mpr (by norm_num)

/-- C3: for a point set of uniform dimension, the value the naive loop
stores for pair (i, j) with i < j is exactly the Euclidean distance
sqrt of the sum over k of the square of points i k minus points j k, and
it is non-negative; and whenever the bulk strategy holds a value for that
pair (the set has at least 100 points and the pair is among the generated
indices), that value equals the same Euclidean distance. -/
theorem computed_value_is_euclidean (r : List (List ℚ)) (d : Nat)
    (hud : ∀ p ∈ r, p.length = d) (i j : Nat) (hij : i < j) (hj : j < r.length) :
    (getMatR (naiveD r) i j = specEuclid (r.getD i []) (r.getD j []) ∧
      0 ≤ getMatR (naiveD r) i j) ∧
    (∀ k, 100 ≤ r.length → k < uti.length → uti.getD k (0, 0) = (i, j) →
      bulkVal r k = specEuclid (r.getD i []) (r.getD j [])) := by
  refine ⟨⟨?_, ?_⟩, ?_⟩
  · rw [getMatR_naiveD, naiveRun_entry r d hud i j hij hj,
      sumsq_sub_comm, sumsq_eq_map]
    rfl
  · rw [getMatR_naiveD]
    exact Real.sqrt_nonneg _
  · intro k h100 hk hgetd
    rw [bulkVal_eq r h100 k hk, hgetd, sumsq_eq_map]
    rfl

/-- Witness for C3 on a 100-point set (so that the bulk branch is not
vacuous) at the pair (0, 1). -/
theorem computed_value_is_euclidean_witness :
    (getMatR (naiveD r100) 0 1 = specEuclid (r100.getD 0 []) (r100.getD 1 []) ∧
      0 ≤ getMatR (naiveD r100) 0 1) ∧
    (∀ k, 100 ≤ r100.length → k < uti.length → uti.getD k (0, 0) = (0, 1) →
      bulkVal r100 k = specEuclid (r100.getD 0 []) (r100.getD 1 [])) :=
  computed_value_is_euclidean r100 2 (by decide) 0 1 (by decide) (by decide)

/-- C2 (amended): the two strategies agree exactly on every pair both of
them compute: on a point set of uniform dimension with at least 100
points, for every pair (i, j) in the bulk index list, the bulk output
value equals the naive matrix entry (i, j).  (As stated the claim is
false: the bulk strategy computes no value at all for point sets of fewer
than 100 points, and none for pairs with j at least 100; see the
counterexample.) -/
theorem naive_eq_bulk_on_shared_pairs (r : List (List ℚ)) (d : Nat)
    (hud : ∀ p ∈ r, p.length = d) (h100 : 100 ≤ r.length) (k i j : Nat)
    (hk : k < uti.length) (hgetd : uti.getD k (0, 0) = (i, j)) :
    bulkVal r k = getMatR (naiveD r) i j := by
  have hmem : (i, j) ∈ uti := hgetd ▸ getD_mem _ k _ hk
  rw [uti] at hmem
  obtain ⟨hij, hj100⟩ := mem_pairList.mp hmem
  rw [bulkVal_eq r h100 k hk, hgetd, getMatR_naiveD,
    naiveRun_entry r d hud i j hij (lt_of_lt_of_le hj100 h100),
    sumsq_sub_comm (r.getD j []) (r.getD i [])]

/-- Witness for C2 on a 100-point set at the first bulk position, the
pair (0, 1). -/
theorem naive_eq_bulk_on_shared_pairs_witness :
    bulkVal r100 0 = getMatR (naiveD r100) 0 1 :=
  naive_eq_bulk_on_shared_pairs r100 2 (by decide) (by decide) 0 0 1
    (by rw [length_uti]; norm_num) (by decide)

/-- C2 (counterexample to the claim as stated): on the two-point set
(0,0), (3,4) the naive strategy succeeds and stores the distance 5 for
the pair (0, 1), while the bulk strategy produces no value at all (its
hard-coded indices reach past the end of a 2-point array), so the two
strategies do not agree on every point set and pair. -/
theorem naive_without_bulk_on_small_input :
    bulkSq [[(0 : ℚ), 0], [3, 4]] = none ∧
      bulkD [[(0 : ℚ), 0], [3, 4]] = none ∧
      (naiveRun [[(0 : ℚ), 0], [3, 4]]).ok = true ∧
      getMatR (naiveD [[(0 : ℚ), 0], [3, 4]]) 0 1 = 5 := by
  have h1 : bulkSq [[(0 : ℚ), 0], [3, 4]] = none := by
    unfold bulkSq
    rw [if_neg (by norm_num)]
  refine ⟨h1, ?_, naiveRun_ok_of_uniform _ 2 (by decide), ?_⟩
  · rw [bulkD, h1]
    rfl
  · rw [getMatR_naiveD, naiveRun_entry _ 2 (by decide) 0 1 (by decide) (by decide)]
    norm_num [sumsq]
    rw [show (25 : ℝ) = 5 ^ 2 by norm_num, Real.sqrt_sq (by norm_num : (0 : ℝ) ≤ 5)]

/-- C8 (amended): the bulk strategy's condensed output lists, in the
canonical pair order (i ascending, then j ascending, i < j), the
distances of all pairs over the point indices 0..99: its index list is
strictly lexicographically sorted, holds exactly the pairs (i, j) with
i < j < 100, has length 4950, and the k-th output element is the
Euclidean distance of the k-th listed pair.  For a point set of exactly
100 points this is the canonical pair order of the whole set; the claim
as stated (over the pairs of an arbitrary point set) is false, see the
counterexample. -/
theorem bulk_canonical_order (r : List (List ℚ)) (h100 : 100 ≤ r.length) :
    uti.Pairwise pairLt ∧
      (∀ i j, ((i, j) ∈ uti ↔ i < j ∧ j < 100)) ∧
      uti.length = 4950 ∧
      (∃ out, bulkD r = some out ∧ out.length = 4950) ∧
      (∀ k i j, k < uti.length → uti.getD k (0, 0) = (i, j) →
        bulkVal r k = specEuclid (r.getD i []) (r.getD j [])) := by
  refine ⟨pairwise_pairList 100, fun i j => mem_pairList, length_uti, ?_, ?_⟩
  · refine ⟨(uti.map (fun p =>
      sumsq (List.zipWith (· - ·) (r.getD p.1 []) (r.getD p.2 [])))).map
        (fun (q : ℚ) => Real.sqrt (q : ℝ)), ?_, ?_⟩
    · rw [bulkD, bulkSq, if_pos h100]
      rfl
    · simp [length_uti]
  · intro k i j hk hgetd
    rw [bulkVal_eq r h100 k hk, hgetd, sumsq_eq_map]
    rfl

/-- Witness for C8 on a concrete 100-point set. -/
theorem bulk_canonical_order_witness :
    uti.Pairwise pairLt ∧
      (∀ i j, ((i, j) ∈ uti ↔ i < j ∧ j < 100)) ∧
      uti.length = 4950 ∧
      (∃ out, bulkD r100 = some out ∧ out.length = 4950) ∧
      (∀ k i j, k < uti.length → uti.getD k (0, 0) = (i, j) →
        bulkVal r100 k = specEuclid (r100.getD i []) (r100.getD j [])) :=
  bulk_canonical_order r100 (by decide)

/-- C8 (counterexample to the claim as stated): on a 101-point set the
100th pair (index 99) in the canonical order of the whole set is
(0, 100), whose distance here is 100, but element 99 of the bulk output
is the distance of the pair (1, 2), namely 1. -/
theorem bulk_order_diverges_beyond_100 :
    (pairList r101.length).getD 99 (0, 0) = (0, 100) ∧
      uti.getD 99 (0, 0) = (1, 2) ∧
      bulkVal r101 99 = 1 ∧
      specEuclid (r101.getD 0 []) (r101.getD 100 []) = 100 ∧
      ((1 : ℝ) ≠ 100) := by
  have hlen : r101.length = 101 := by simp [r101]
  have huti : uti.getD 99 (0, 0) = (1, 2) := by decide
  have hget : ∀ m, m < 101 → r101.getD m [] = [(m : ℚ), 0] := by
    intro m hm
    rw [r101, List.getD_eq_getElem _ _ (by simpa using hm), List.getElem_map,
      List.getElem_range]
  refine ⟨?_, huti, ?_, ?_, by norm_num⟩
  · rw [hlen]
    decide
  · rw [bulkVal_eq r101 (by rw [hlen]; norm_num) 99 (by rw [length_uti]; norm_num),
      huti, hget 1 (by norm_num), hget 2 (by norm_num)]
    norm_num [sumsq]
  · rw [specEuclid, hget 0 (by norm_num), hget 100 (by norm_num)]
    norm_num
    rw [show (10000 : ℝ) = 100 ^ 2 by norm_num,
      Real.sqrt_sq (by norm_num : (0 : ℝ) ≤ 100)]

/-- C1 (evaluating the code at its own configuration, the failing input):
on a point set of N = 1000 points the bulk strategy's condensed output
has length 4950 = 100*99/2, not N(N-1)/2 = 499500; the naive loop does
iterate over N(N-1)/2 pairs.  The flaw is the hard-coded 100 inside the
bulk index generation. -/
theorem bulk_output_length_at_1000 :
    r1000.length = 1000 ∧
      (bulkSq r1000).map List.length = some 4950 ∧
      (bulkD r1000).map List.length = some 4950 ∧
      (∀ n : Nat, (pairList n).length = n * (n - 1) / 2) ∧
      (pairList 1000).length = 499500 ∧
      ((4950 : Nat) ≠ 499500) := by
  have hlen : r1000.length = 1000 := by simp [r1000]
  have hbulk : bulkSq r1000 =
      some (uti.map (fun p =>
        sumsq (List.zipWith (· - ·) (r1000.getD p.1 []) (r1000.getD p.2 [])))) := by
    rw [bulkSq, if_pos (by rw [hlen]; norm_num)]
  refine ⟨hlen, ?_, ?_, length_pairList, ?_, by norm_num⟩
  · rw [hbulk]
    simp [length_uti]
  · rw [bulkD, hbulk]
    simp [length_uti]
  · rw [length_pairList]

/-- C10: the bulk strategy generates its index pairs for 100 points
unconditionally: it succeeds exactly on point sets with at least 100
points (on fewer, the hard-coded indices run out of bounds and it
fails), every generated index is below 100, and its result depends only
on the first 100 points of the input. -/
theorem bulk_hardcodes_100 (r : List (List ℚ)) :
    ((bulkSq r).isSome ↔ 100 ≤ r.length) ∧
      (∀ p ∈ uti, p.1 < 100 ∧ p.2 < 100) ∧
      (∀ r' : List (List ℚ), 100 ≤ r.length → 100 ≤ r'.length →
        (∀ i, i < 100 → r.getD i [] = r'.getD i []) → bulkSq r = bulkSq r') := by
  refine ⟨bulkSq_isSome r, ?_, ?_⟩
  · rintro ⟨a, b⟩ hp
    rw [uti] at hp
    have := mem_pairList.mp hp
    omega
  · intro r' h1 h2 hag
    rw [bulkSq, bulkSq, if_pos h1, if_pos h2]
    refine congrArg some (List.map_congr_left ?_)
    rintro ⟨a, b⟩ hp
    rw [uti] at hp
    obtain ⟨hab, hb⟩ := mem_pairList.mp hp
    rw [hag a (by omega), hag b hb]

/-- Witness for C10: the bulk output on a 100-point set is unchanged when
a 101st point is appended, since only indices below 100 are read. -/
theorem bulk_hardcodes_100_witness :
    bulkSq r100 = bulkSq (r100 ++ [[(7 : ℚ), 7]]) := by
  refine (bulk_hardcodes_100 r100).2.2 _ (by decide) (by simp [r100]) ?_
  intro i hi
  exact (List.getD_append _ _ _ _ (by simp [r100]; omega)).symm

end Sandbox
